import Mathlib

/-
Verification development for the JDA hard-negative-mining and training-set
bookkeeping engine (`src/include/jda/data.hpp`).

The repository ships only the interface header; the method bodies of
`jda::DataSet` and `jda::NegGenerator` are not part of the sources.  The data
model below therefore mirrors the fields declared in the header verbatim,
while each operation body is modelled from the specification (and from the
behavioural notes in the header's own doc comments), as indicated on every
definition.  `DataSet::HasGtShape` is the one member implemented inline in
the header and is translated directly from that code.

Scalar conventions: C++ `double` values (scores, weights, thresholds, rates,
statistics) are modelled as `ℚ`; image buffers (`cv::Mat`) are opaque tokens
`ℕ`; a landmark shape (`cv::Mat_<double>`, row of coordinates) is a `List ℚ`.
C++ `int` sizes and counts are modelled as `ℕ`, the `int` entries of
`shape_mask` (which hold `1` or `-1`) as `ℤ`.  The C math-library `exp`
used by `UpdateWeights` is an external scalar function and enters the model
as an uninterpreted parameter `E : ℚ → ℚ`.
-/

namespace JDA

/-- Opaque model of a `cv::Mat` image patch. -/
abbrev Img := ℕ

/-- A shape: flat list of landmark coordinates `(x1, y1, x2, y2, ...)`. -/
abbrev Shape := List ℚ

/-- A weak classifier (`jda::Cart`): externally supplied evaluator producing a
score contribution from a sample's image and current shape (spec §6). -/
abbrev Cart := Img → Shape → ℚ

/-- The parallel-array state of `jda::DataSet`, with the fields declared at
`src/include/jda/data.hpp` lines 279-306 (the `neg_generator` member is
modelled separately by `MinerState` below, since its state never interacts
with the per-sample arrays). -/
structure DataSet where
  imgs : List Img
  imgs_half : List Img
  imgs_quarter : List Img
  gt_shapes : List Shape
  shape_mask : List ℤ
  current_shapes : List Shape
  scores : List ℚ
  last_scores : List ℚ
  weights : List ℚ
  is_pos : Bool
  mean_shape : Shape
  is_sorted : Bool
  size : ℕ
deriving DecidableEq

/-- The parallel-array invariant of spec §3/§8.1: every per-sample sequence
has length equal to the `size` field. -/
def WellFormed (d : DataSet) : Prop :=
  d.imgs.length = d.size ∧ d.imgs_half.length = d.size ∧
  d.imgs_quarter.length = d.size ∧ d.gt_shapes.length = d.size ∧
  d.shape_mask.length = d.size ∧ d.current_shapes.length = d.size ∧
  d.scores.length = d.size ∧ d.last_scores.length = d.size ∧
  d.weights.length = d.size

instance (d : DataSet) : Decidable (WellFormed d) := by
  unfold WellFormed; infer_instance

/-- Keep the elements of `xs` at the positions where the parallel key list
`ks` satisfies `p`; used to compact all parallel arrays of a `DataSet` by one
and the same deletion (spec §4.3 `Remove`). -/
def filterBy {α : Type} (ks : List ℚ) (p : ℚ → Bool) : List α → List α
  | [] => []
  | x :: xs =>
    match ks with
    | [] => []
    | k :: ks2 => if p k then x :: filterBy ks2 p xs else filterBy ks2 p xs

/-- Rebuild every parallel array of `d` by reading it at the index sequence
`idx`; this is the "single permutation applied consistently to every
attribute" device of spec §4.3/§9 (index-permutation reordering). -/
def reindex (d : DataSet) (idx : List ℕ) : DataSet :=
  { d with
    imgs := idx.map (fun i => d.imgs.getD i 0)
    imgs_half := idx.map (fun i => d.imgs_half.getD i 0)
    imgs_quarter := idx.map (fun i => d.imgs_quarter.getD i 0)
    gt_shapes := idx.map (fun i => d.gt_shapes.getD i [])
    shape_mask := idx.map (fun i => d.shape_mask.getD i 0)
    current_shapes := idx.map (fun i => d.current_shapes.getD i [])
    scores := idx.map (fun i => d.scores.getD i 0)
    last_scores := idx.map (fun i => d.last_scores.getD i 0)
    weights := idx.map (fun i => d.weights.getD i 0)
    size := idx.length }

/-- One line of the positive-sample list file: an image together with its
annotated landmarks (header note at `data.hpp` lines 115-117: a landmark
coordinate below zero marks a face without ground-truth shape). -/
structure PosEntry where
  img : Img
  shp : Shape
deriving DecidableEq

/-- Modelled from the spec: `DataSet::LoadPositiveDataSet` (body not in
`src/`).  Builds the positive set from the parsed sample list; per the header
note, `shape_mask` is `-1` when some landmark coordinate is negative and `1`
otherwise.  I/O and image decoding are external collaborators (spec §6), so
the parsed entries are the input. -/
def LoadPositiveDataSet (entries : List PosEntry) : DataSet :=
  { imgs := entries.map (fun e => e.img)
    imgs_half := entries.map (fun e => e.img)
    imgs_quarter := entries.map (fun e => e.img)
    gt_shapes := entries.map (fun e => e.shp)
    shape_mask := entries.map (fun e => if e.shp.any (fun c => decide (c < 0)) then -1 else 1)
    current_shapes := entries.map (fun e => e.shp)
    scores := entries.map (fun _ => 0)
    last_scores := entries.map (fun _ => 0)
    weights := entries.map (fun _ => 1)
    is_pos := true
    mean_shape := []
    is_sorted := false
    size := entries.length }

/-- Modelled from the spec: `DataSet::LoadNegativeDataSet` (body not in
`src/`).  Builds the negative set from pre-generated negative patches; the
shape mask of a negative sample is always `-1` (header comment at `data.hpp`
lines 110-113: negatives never have a ground-truth shape). -/
def LoadNegativeDataSet (negs : List Img) : DataSet :=
  { imgs := negs
    imgs_half := negs
    imgs_quarter := negs
    gt_shapes := negs.map (fun _ => [])
    shape_mask := negs.map (fun _ => -1)
    current_shapes := negs.map (fun _ => [])
    scores := negs.map (fun _ => 0)
    last_scores := negs.map (fun _ => 0)
    weights := negs.map (fun _ => 1)
    is_pos := false
    mean_shape := []
    is_sorted := false
    size := negs.length }

/-- One sample produced by hard-negative mining: image patch, cascade score
and current shape, as given back by `NegGenerator::Generate` (header doc at
`data.hpp` lines 26-45). -/
structure Mined where
  img : Img
  score : ℚ
  shp : Shape
deriving DecidableEq

/-- Modelled from the spec: `DataSet::MoreNegSamples` (body not in `src/`).
Computes `deficit = pos_size * rate - size` (spec §4.3); when the deficit is
positive the miner's output `mined` is appended to every parallel array, the
new samples getting shape mask `-1` (no ground-truth shape), the miner's
score as score, and a placeholder weight until the next `UpdateWeights`.
A shortfall (fewer mined samples than the deficit) is not an error: the call
returns normally with a smaller-than-target set. -/
def DataSet.MoreNegSamples (d : DataSet) (pos_size : ℕ) (rate : ℚ) (mined : List Mined) : DataSet :=
  if (0 : ℚ) < pos_size * rate - d.size then
    { d with
      imgs := d.imgs ++ mined.map (fun m => m.img)
      imgs_half := d.imgs_half ++ mined.map (fun m => m.img)
      imgs_quarter := d.imgs_quarter ++ mined.map (fun m => m.img)
      gt_shapes := d.gt_shapes ++ mined.map (fun _ => [])
      shape_mask := d.shape_mask ++ mined.map (fun _ => -1)
      current_shapes := d.current_shapes ++ mined.map (fun m => m.shp)
      scores := d.scores ++ mined.map (fun m => m.score)
      last_scores := d.last_scores ++ mined.map (fun m => m.score)
      weights := d.weights ++ mined.map (fun _ => 1)
      is_sorted := false
      size := d.size + mined.length }
  else d

/-- Modelled from the spec: `DataSet::UpdateScores` (body not in `src/`).
`f_i = f_i + Cart(x, s)` (header doc at `data.hpp` lines 191-195): the weak
classifier's contribution is added to every score, and the pre-update scores
are preserved in `last_scores` so `ResetScores` can roll back one update
(spec §4.3). -/
def DataSet.UpdateScores (d : DataSet) (c : Cart) : DataSet :=
  { d with
    scores := (List.range d.size).map
      (fun i => d.scores.getD i 0 + c (d.imgs.getD i 0) (d.current_shapes.getD i []))
    last_scores := d.scores
    is_sorted := false }

/-- Modelled from the spec: `DataSet::ResetScores` (body not in `src/`).
"Reset score to last_score" (header doc at `data.hpp` lines 227-230). -/
def DataSet.ResetScores (d : DataSet) : DataSet :=
  { d with scores := d.last_scores, is_sorted := false }

/-- Modelled from the spec: `DataSet::UpdateWeights` (body not in `src/`).
`w_i = e^{-y_i * f_i}` (header doc at `data.hpp` lines 185-188) with label
`y_i = +1` for the positive set and `-1` for the negative set; the
exponential is the uninterpreted external scalar function `E`. -/
def DataSet.UpdateWeights (d : DataSet) (E : ℚ → ℚ) : DataSet :=
  { d with
    weights := d.scores.map (fun s => E (-(if d.is_pos then (1 : ℚ) else -1) * s)) }

/-- Modelled from the spec: the paired static overload
`DataSet::UpdateWeights(pos, neg)` (declaration at `data.hpp` line 190),
which applies the weight update to both sets together (spec §4.3 leaves any
joint normalization constant open, so none is applied). -/
def UpdateWeightsPair (E : ℚ → ℚ) (pos neg : DataSet) : DataSet × DataSet :=
  (pos.UpdateWeights E, neg.UpdateWeights E)

/-- Modelled from the spec: `DataSet::Swap` (body not in `src/`): exchanges
all per-sample attributes at two indices together (spec §4.3); out-of-range
indices are caller errors in the C++ and are modelled as a no-op. -/
def DataSet.Swap (d : DataSet) (i j : ℕ) : DataSet :=
  if i < d.size ∧ j < d.size then
    { reindex d ((List.range d.size).map
        (fun k => if k = i then j else if k = j then i else k)) with
      is_sorted := false }
  else d

/-- Modelled from the spec: `DataSet::QSort` (body not in `src/`): sorts all
parallel arrays jointly by descending score, one permutation applied
consistently to every attribute; realised as the index-permutation sort of
spec §9 (sort an index list by score, then gather every array through it),
with the stable insertion into sorted position breaking ties by original
index. -/
def DataSet.QSort (d : DataSet) : DataSet :=
  { reindex d (List.insertionSort
      (fun i j => d.scores.getD j 0 ≤ d.scores.getD i 0) (List.range d.size)) with
    is_sorted := true }

/-- Modelled from the spec: `DataSet::CalcThresholdByNumber` (body not in
`src/`).  Per spec §4.3 it assumes descending-score order (sorting first when
the `is_sorted` flag is down) and returns the score value θ such that exactly
`remove` samples — the `remove` smallest — have `score < θ`: on the
descending list this is the entry at index `size - remove - 1`, the smallest
kept score. -/
def DataSet.CalcThresholdByNumber (d : DataSet) (remove : ℕ) : ℚ :=
  let ds := if d.is_sorted then d else d.QSort
  ds.scores.getD (ds.size - remove - 1) 0

/-- Modelled from the spec: `DataSet::Remove` (body not in `src/`): "Adjust
DataSet by removing scores < th" (header doc at `data.hpp` lines 202-206);
every parallel array is compacted by the same deletion, keyed on the scores,
and `size` is updated.  Deletion keeps the surviving order, so the
`is_sorted` flag is unchanged. -/
def DataSet.Remove (d : DataSet) (th : ℚ) : DataSet :=
  let keep : ℚ → Bool := fun s => decide (¬ s < th)
  { d with
    imgs := filterBy d.scores keep d.imgs
    imgs_half := filterBy d.scores keep d.imgs_half
    imgs_quarter := filterBy d.scores keep d.imgs_quarter
    gt_shapes := filterBy d.scores keep d.gt_shapes
    shape_mask := filterBy d.scores keep d.shape_mask
    current_shapes := filterBy d.scores keep d.current_shapes
    scores := filterBy d.scores keep d.scores
    last_scores := filterBy d.scores keep d.last_scores
    weights := filterBy d.scores keep d.weights
    size := (filterBy (α := ℚ) d.scores keep d.scores).length }

/-- Modelled from the spec: `DataSet::ApplyMeanAndStd` (body not in `src/`):
z-score normalization of the scores by the jointly computed mean and standard
deviation (spec §4.3). -/
def DataSet.ApplyMeanAndStd (d : DataSet) (mean std : ℚ) : DataSet :=
  { d with scores := d.scores.map (fun s => (s - mean) / std) }

/-- Modelled from the spec: `DataSet::Clear` (body not in `src/`): "Clear
all" (header doc at `data.hpp` lines 245-248), returning the set to the
empty state. -/
def DataSet.Clear (d : DataSet) : DataSet :=
  { d with
    imgs := [], imgs_half := [], imgs_quarter := [], gt_shapes := []
    shape_mask := [], current_shapes := [], scores := [], last_scores := []
    weights := [], mean_shape := [], is_sorted := false, size := 0 }

/-- Translated from the inline source of `DataSet::HasGtShape`
(`src/include/jda/data.hpp` lines 274-277):
`if (is_pos && shape_mask[index] > 0) return true; else return false;`.
The C++ `&&` short-circuits, so on a negative set `shape_mask[index]` is
never read; when it is read, an out-of-range `index` is undefined behaviour,
modelled as `none`. -/
def DataSet.HasGtShape (d : DataSet) (index : ℤ) : Option Bool :=
  if d.is_pos then
    if 0 ≤ index ∧ index.toNat < d.shape_mask.length then
      some (decide ((0 : ℤ) < d.shape_mask.getD index.toNat 0))
    else none
  else some false

/- Parallel hard-negative mining.

Model of `NegGenerator::Generate` / `NegGenerator::ParallelMining`
(declarations and behavioural doc at `src/include/jda/data.hpp` lines 26-79;
the bodies are not in `src/`, so the semantics is modelled from the spec
§4.2/§5 and the header notes).  Worker threads own disjoint mining cursors
(`NextImage` is thread safe, needs no lock); evaluation of a candidate patch
against the cascade happens outside any lock; appending an accepted patch to
the shared output together with updating the statistics `nega_n`, `carts_n`
and the acceptance ratio is the single critical section guarded by
`write_lock`.  Interleaving is made explicit by a schedule: a list of worker
ids, each entry letting that worker perform one atomic phase (either pick up
its next candidate at the loop top, or commit the evaluation outcome of the
candidate it holds).  Because the loop-top check of the shared stop flag
happens before the (slow, unlocked) cascade evaluation, a worker holding an
already-evaluated accepted patch still appends it after the target has been
reached — which is why the header notes "we may have `real size` > `size`".
-/

/-- A candidate patch drawn by a mining cursor: whether the cascade accepts
it, and on acceptance its image, score and initial shape. -/
structure Candidate where
  passes : Bool
  img : Img
  score : ℚ
  shp : Shape
deriving DecidableEq

/-- Per-worker mining state: the candidate currently being evaluated (between
the loop-top and its critical-section commit), the remaining cursor stream,
the worker's own accept count, its locally accumulated tested count (flushed
into `carts_n` at its next accepting commit), and whether the worker has
halted. -/
structure Worker where
  pending : Option Candidate
  remaining : List Candidate
  accepted : ℕ
  tested : ℕ
  done : Bool
deriving DecidableEq

/-- Shared mining state: the output arrays grown by the critical section, the
statistics `nega_n` / `carts_n` / acceptance ratio, the stop flag raised when
the target count is reached, and the worker pool. -/
structure MinerState where
  imgs : List Img
  scoresOut : List ℚ
  shapesOut : List Shape
  nega_n : ℕ
  carts_n : ℕ
  ratio_stat : ℚ
  stop : Bool
  workers : List Worker
deriving DecidableEq

/-- A halted worker with nothing pending; also the out-of-range default. -/
def idleWorker : Worker := ⟨none, [], 0, 0, true⟩

/-- One atomic phase of worker `w` (see the section comment): at the loop top
the worker halts if the stop flag is up or its cursor is exhausted, else it
picks up its next candidate (counting it as tested); holding an evaluated
candidate, it discards a rejected patch without touching shared state, while
an accepted patch enters the critical section: append to the three output
arrays, `nega_n += 1`, flush the local tested count into `carts_n`, recompute
the ratio, and raise the stop flag once `size` accepted samples exist. -/
def step (size : ℕ) (st : MinerState) (w : ℕ) : MinerState :=
  let ws := st.workers.getD w idleWorker
  match ws.pending with
  | some c =>
    if c.passes then
      { imgs := st.imgs ++ [c.img]
        scoresOut := st.scoresOut ++ [c.score]
        shapesOut := st.shapesOut ++ [c.shp]
        nega_n := st.nega_n + 1
        carts_n := st.carts_n + ws.tested
        ratio_stat := ((st.nega_n + 1 : ℕ) : ℚ) / ((st.carts_n + ws.tested : ℕ) : ℚ)
        stop := st.stop || decide (size ≤ st.nega_n + 1)
        workers := st.workers.set w
          ({ ws with pending := none, accepted := ws.accepted + 1, tested := 0 }) }
    else
      { st with workers := st.workers.set w { ws with pending := none } }
  | none =>
    if ws.done then st
    else if st.stop then
      { st with workers := st.workers.set w { ws with done := true } }
    else
      match ws.remaining with
      | [] => { st with workers := st.workers.set w { ws with done := true } }
      | c :: rest =>
        let ws1 : Worker :=
          { ws with pending := some c, remaining := rest, tested := ws.tested + 1 }
        { st with workers := st.workers.set w ws1 }

/-- Run a whole schedule of worker phases from a state. -/
def run (size : ℕ) (sched : List ℕ) (st : MinerState) : MinerState :=
  sched.foldl (step size) st

/-- The state at the start of a `Generate` call: empty outputs, zeroed
statistics, and one fresh worker per cursor candidate stream. -/
def initState (cands : List (List Candidate)) : MinerState :=
  { imgs := [], scoresOut := [], shapesOut := [], nega_n := 0, carts_n := 0
    ratio_stat := 0, stop := false
    workers := cands.map (fun cs => ⟨none, cs, 0, 0, false⟩) }

/- Helper lemmas. -/

theorem filterBy_self (ks : List ℚ) (p : ℚ → Bool) : filterBy ks p ks = ks.filter p := by
  induction ks with
  | nil => rfl
  | cons k ks ih =>
    by_cases h : p k <;> simp [filterBy, List.filter_cons, h, ih]

theorem filterBy_length {α : Type} (p : ℚ → Bool) :
    ∀ (ks : List ℚ) (xs : List α), ks.length = xs.length →
      (filterBy ks p xs).length = (ks.filter p).length
  | [], [], _ => by simp [filterBy]
  | [], _ :: _, h => by simp at h
  | _ :: _, [], h => by simp at h
  | k :: ks, x :: xs, h => by
    have h2 : ks.length = xs.length := by simpa using h
    by_cases hp : p k <;>
      simp [filterBy, List.filter_cons, hp, filterBy_length p ks xs h2]

theorem filterBy_eq_zip {α : Type} (p : ℚ → Bool) :
    ∀ (ks : List ℚ) (xs : List α), ks.length = xs.length →
      filterBy ks p xs = ((xs.zip ks).filter (fun q => p q.2)).map Prod.fst
  | [], [], _ => by simp [filterBy]
  | [], _ :: _, h => by simp at h
  | _ :: _, [], h => by simp at h
  | k :: ks, x :: xs, h => by
    have h2 : ks.length = xs.length := by simpa using h
    by_cases hp : p k <;>
      simp [filterBy, List.zip_cons_cons, List.filter_cons, hp, filterBy_eq_zip p ks xs h2]

theorem getD_map_of_lt {α β : Type} (f : α → β) (da : α) (db : β) :
    ∀ (l : List α) (i : ℕ), i < l.length → (l.map f).getD i db = f (l.getD i da)
  | [], _, h => by simp at h
  | _ :: _, 0, _ => by simp
  | _ :: l, i + 1, h => by
    have h2 : i < l.length := by simpa using h
    simpa using getD_map_of_lt f da db l i h2

theorem getD_default_of_le {α : Type} (da : α) :
    ∀ (l : List α) (i : ℕ), l.length ≤ i → l.getD i da = da
  | [], _, _ => by simp
  | _ :: _, 0, h => by simp at h
  | _ :: l, i + 1, h => by
    have h2 : l.length ≤ i := by simpa using h
    simpa using getD_default_of_le da l i h2

theorem sum_map_set {α : Type} (f : α → ℕ) (d0 : α) :
    ∀ (l : List α) (w : ℕ) (x : α), w < l.length →
      ((l.set w x).map f).sum + f (l[w]?.getD d0) = (l.map f).sum + f x
  | [], _, _, h => by simp at h
  | _ :: _, 0, x, _ => by simp; omega
  | a :: l, w + 1, x, h => by
    have h2 : w < l.length := by simpa using h
    have h3 := sum_map_set f d0 l w x h2
    simp [List.set] at h3 ⊢
    omega

theorem countP_set_balance {α : Type} (q : α → Bool) (d0 : α) :
    ∀ (l : List α) (w : ℕ) (x : α), w < l.length →
      (l.set w x).countP q + (if q (l[w]?.getD d0) then 1 else 0)
        = l.countP q + (if q x then 1 else 0)
  | [], _, _, h => by simp at h
  | _ :: _, 0, x, _ => by simp [List.countP_cons]; omega
  | a :: l, w + 1, x, h => by
    have h2 : w < l.length := by simpa using h
    have h3 := countP_set_balance q d0 l w x h2
    simp [List.set, List.countP_cons] at h3 ⊢
    omega

/-- Sum of the per-worker accept counters. -/
def accSum (st : MinerState) : ℕ := (st.workers.map (fun ws => ws.accepted)).sum

/-- Number of workers currently holding a candidate under evaluation. -/
def pendCount (st : MinerState) : ℕ := st.workers.countP (fun ws => ws.pending.isSome)

/-- Consistency of the shared statistics (spec §8.6): the shared accept
counter agrees with the sum of the per-worker accept counts and with the
number of appended samples, and the reported ratio is exactly
`nega_n / carts_n` (with `0 / 0 = 0` at the start). -/
def StatsInv (st : MinerState) : Prop :=
  st.nega_n = accSum st ∧
  st.ratio_stat = (st.nega_n : ℚ) / (st.carts_n : ℚ) ∧
  st.imgs.length = st.nega_n

/-- Overshoot bound: while the stop flag is down fewer than `size` samples
have been accepted, and once it is up the accepted count plus the number of
still-pending evaluations never exceeds `size + W - 1`. -/
def BoundInv (size : ℕ) (st : MinerState) : Prop :=
  (st.stop = false → st.nega_n < size) ∧
  (st.stop = true → st.nega_n + pendCount st ≤ size + st.workers.length - 1)

theorem lt_length_of_pending {st : MinerState} {w : ℕ} {c : Candidate}
    (h : (st.workers[w]?.getD idleWorker).pending = some c) : w < st.workers.length := by
  by_contra hw
  push_neg at hw
  rw [← List.getD_eq_getElem?_getD, getD_default_of_le idleWorker st.workers w hw] at h
  simp [idleWorker] at h

theorem lt_length_of_not_done {st : MinerState} {w : ℕ}
    (h : (st.workers[w]?.getD idleWorker).done = false) : w < st.workers.length := by
  by_contra hw
  push_neg at hw
  rw [← List.getD_eq_getElem?_getD, getD_default_of_le idleWorker st.workers w hw] at h
  simp [idleWorker] at h

theorem step_workers_length (size : ℕ) (st : MinerState) (w : ℕ) :
    (step size st w).workers.length = st.workers.length := by
  cases hp : (st.workers[w]?.getD idleWorker).pending with
  | some c =>
    by_cases hc : c.passes = true <;> simp [step, hp, hc]
  | none =>
    by_cases hd : (st.workers[w]?.getD idleWorker).done
    · simp [step, hp, hd]
    · by_cases hs : st.stop
      · simp [step, hp, hd, hs]
      · cases hr : (st.workers[w]?.getD idleWorker).remaining <;> simp [step, hp, hd, hs, hr]

theorem run_workers_length (size : ℕ) (sched : List ℕ) (st : MinerState) :
    (run size sched st).workers.length = st.workers.length := by
  induction sched generalizing st with
  | nil => rfl
  | cons a sched ih => rw [run, List.foldl_cons, ← run, ih, step_workers_length]

theorem statsInv_step (size : ℕ) (st : MinerState) (w : ℕ) (h : StatsInv st) :
    StatsInv (step size st w) := by
  obtain ⟨h1, h2, h3⟩ := h
  cases hp : (st.workers[w]?.getD idleWorker).pending with
  | some c =>
    have hw : w < st.workers.length := lt_length_of_pending hp
    by_cases hc : c.passes = true
    · have hsum := sum_map_set (fun ws => ws.accepted) idleWorker st.workers w ({ st.workers[w]?.getD idleWorker with pending := none, accepted := (st.workers[w]?.getD idleWorker).accepted + 1, tested := 0 }) hw
      refine ⟨?_, ?_, ?_⟩
      · simp [step, hp, hc, accSum] at hsum h1 ⊢
        omega
      · simp [step, hp, hc]
      · simp [step, hp, hc, h3]
    · have hsum := sum_map_set (fun ws => ws.accepted) idleWorker st.workers w ({ st.workers[w]?.getD idleWorker with pending := none }) hw
      refine ⟨?_, ?_, ?_⟩
      · simp [step, hp, hc, accSum] at hsum h1 ⊢
        omega
      · simp [step, hp, hc, h2]
      · simp [step, hp, hc, h3]
  | none =>
    by_cases hd : (st.workers[w]?.getD idleWorker).done
    · simpa [step, hp, hd] using ⟨h1, h2, h3⟩
    · have hw : w < st.workers.length := lt_length_of_not_done (by simpa using hd)
      by_cases hs : st.stop
      · have hsum := sum_map_set (fun ws => ws.accepted) idleWorker st.workers w ({ st.workers[w]?.getD idleWorker with done := true }) hw
        refine ⟨?_, ?_, ?_⟩
        · simp [step, hp, hd, hs, accSum] at hsum h1 ⊢
          omega
        · simp [step, hp, hd, hs, h2]
        · simp [step, hp, hd, hs, h3]
      · cases hr : (st.workers[w]?.getD idleWorker).remaining with
        | nil =>
          have hsum := sum_map_set (fun ws => ws.accepted) idleWorker st.workers w ({ st.workers[w]?.getD idleWorker with done := true }) hw
          refine ⟨?_, ?_, ?_⟩
          · simp [step, hp, hd, hs, hr, accSum] at hsum h1 ⊢
            omega
          · simp [step, hp, hd, hs, hr, h2]
          · simp [step, hp, hd, hs, hr, h3]
        | cons c rest =>
          have hsum := sum_map_set (fun ws => ws.accepted) idleWorker st.workers w ({ st.workers[w]?.getD idleWorker with pending := some c, remaining := rest, tested := (st.workers[w]?.getD idleWorker).tested + 1 }) hw
          refine ⟨?_, ?_, ?_⟩
          · simp [step, hp, hd, hs, hr, accSum] at hsum h1 ⊢
            omega
          · simp [step, hp, hd, hs, hr, h2]
          · simp [step, hp, hd, hs, hr, h3]

theorem statsInv_run (size : ℕ) (sched : List ℕ) (st : MinerState) (h : StatsInv st) :
    StatsInv (run size sched st) := by
  induction sched generalizing st with
  | nil => exact h
  | cons a sched ih =>
    rw [run, List.foldl_cons, ← run]
    exact ih _ (statsInv_step size st a h)

theorem boundInv_step (size : ℕ) (st : MinerState) (w : ℕ) (h : BoundInv size st) :
    BoundInv size (step size st w) := by
  obtain ⟨hA, hB⟩ := h
  have hle : st.workers.countP (fun ws => ws.pending.isSome) ≤ st.workers.length :=
    List.countP_le_length _
  cases hp : (st.workers[w]?.getD idleWorker).pending with
  | some c =>
    have hw : w < st.workers.length := lt_length_of_pending hp
    by_cases hc : c.passes = true
    · have hpend := countP_set_balance (fun ws => ws.pending.isSome) idleWorker st.workers w ({ st.workers[w]?.getD idleWorker with pending := none, accepted := (st.workers[w]?.getD idleWorker).accepted + 1, tested := 0 }) hw
      simp [hp] at hpend
      refine ⟨?_, ?_⟩
      · intro hfl
        simp [step, hp, hc, pendCount] at hfl ⊢
        omega
      · intro hfl
        simp [step, hp, hc, pendCount] at hfl ⊢
        by_cases hss : st.stop = true
        · have hb := hB hss
          simp [pendCount] at hb
          omega
        · have ha := hA (by simpa using hss)
          have hsz : size ≤ st.nega_n + 1 := by
            rcases hfl with hfl | hfl
            · exact absurd hfl hss
            · exact hfl
          omega
    · have hpend := countP_set_balance (fun ws => ws.pending.isSome) idleWorker st.workers w ({ st.workers[w]?.getD idleWorker with pending := none }) hw
      simp [hp] at hpend
      refine ⟨?_, ?_⟩
      · intro hfl
        simp [step, hp, hc, pendCount] at hfl ⊢
        exact hA hfl
      · intro hfl
        simp [step, hp, hc, pendCount] at hfl ⊢
        have hb := hB hfl
        simp [pendCount] at hb
        omega
  | none =>
    by_cases hd : (st.workers[w]?.getD idleWorker).done
    · simpa [step, hp, hd] using ⟨hA, hB⟩
    · have hw : w < st.workers.length := lt_length_of_not_done (by simpa using hd)
      by_cases hs : st.stop = true
      · have hpend := countP_set_balance (fun ws => ws.pending.isSome) idleWorker st.workers w ({ st.workers[w]?.getD idleWorker with done := true }) hw
        simp [hp] at hpend
        refine ⟨?_, ?_⟩
        · intro hfl
          simp [step, hp, hd, hs] at hfl
        · intro hfl
          simp [step, hp, hd, hs, pendCount] at hfl ⊢
          have hb := hB hs
          simp [pendCount] at hb
          omega
      · cases hr : (st.workers[w]?.getD idleWorker).remaining with
        | nil =>
          refine ⟨?_, ?_⟩
          · intro hfl
            simp [step, hp, hd, hs, hr] at hfl ⊢
            exact hA (by simpa using hs)
          · intro hfl
            simp [step, hp, hd, hs, hr] at hfl
        | cons c rest =>
          refine ⟨?_, ?_⟩
          · intro hfl
            simp [step, hp, hd, hs, hr] at hfl ⊢
            exact hA (by simpa using hs)
          · intro hfl
            simp [step, hp, hd, hs, hr] at hfl

theorem boundInv_run (size : ℕ) (sched : List ℕ) (st : MinerState) (h : BoundInv size st) :
    BoundInv size (run size sched st) := by
  induction sched generalizing st with
  | nil => exact h
  | cons a sched ih =>
    rw [run, List.foldl_cons, ← run]
    exact ih _ (boundInv_step size st a h)

/- Preservation of the parallel-array invariant. -/

theorem wf_reindex (d : DataSet) (idx : List ℕ) : WellFormed (reindex d idx) := by
  simp [WellFormed, reindex]

theorem wf_load_pos (entries : List PosEntry) : WellFormed (LoadPositiveDataSet entries) := by
  simp [WellFormed, LoadPositiveDataSet]

theorem wf_load_neg (negs : List Img) : WellFormed (LoadNegativeDataSet negs) := by
  simp [WellFormed, LoadNegativeDataSet]

theorem wf_more_neg (d : DataSet) (ps : ℕ) (rate : ℚ) (mined : List Mined)
    (h : WellFormed d) : WellFormed (d.MoreNegSamples ps rate mined) := by
  obtain ⟨h1, h2, h3, h4, h5, h6, h7, h8, h9⟩ := h
  by_cases hc : (0 : ℚ) < ps * rate - d.size <;>
    simp [WellFormed, DataSet.MoreNegSamples, hc, h1, h2, h3, h4, h5, h6, h7, h8, h9]

theorem wf_update_scores (d : DataSet) (c : Cart) (h : WellFormed d) :
    WellFormed (d.UpdateScores c) := by
  obtain ⟨h1, h2, h3, h4, h5, h6, h7, h8, h9⟩ := h
  simp [WellFormed, DataSet.UpdateScores, h1, h2, h3, h4, h5, h6, h7, h8, h9]

theorem wf_update_weights (d : DataSet) (E : ℚ → ℚ) (h : WellFormed d) :
    WellFormed (d.UpdateWeights E) := by
  obtain ⟨h1, h2, h3, h4, h5, h6, h7, h8, h9⟩ := h
  simp [WellFormed, DataSet.UpdateWeights, h1, h2, h3, h4, h5, h6, h7, h8, h9]

theorem wf_remove (d : DataSet) (th : ℚ) (h : WellFormed d) : WellFormed (d.Remove th) := by
  obtain ⟨h1, h2, h3, h4, h5, h6, h7, h8, h9⟩ := h
  have L : ∀ {α : Type} (xs : List α), xs.length = d.size →
      (filterBy d.scores (fun s => decide (¬ s < th)) xs).length
        = (d.scores.filter (fun s => decide (¬ s < th))).length := by
    intro α xs hx
    exact filterBy_length _ _ _ (by rw [h7, hx])
  refine ⟨?_, ?_, ?_, ?_, ?_, ?_, ?_, ?_, ?_⟩ <;>
    simp only [DataSet.Remove] <;>
    rw [L _ h7] <;>
    first
      | rw [L _ h1] | rw [L _ h2] | rw [L _ h3] | rw [L _ h4] | rw [L _ h5]
      | rw [L _ h6] | rw [L _ h7] | rw [L _ h8] | rw [L _ h9]

theorem wf_qsort (d : DataSet) : WellFormed (d.QSort) := by
  simp [WellFormed, DataSet.QSort, reindex, List.length_insertionSort]

theorem wf_swap (d : DataSet) (i j : ℕ) (h : WellFormed d) : WellFormed (d.Swap i j) := by
  by_cases hc : i < d.size ∧ j < d.size
  · simp [WellFormed, DataSet.Swap, hc, reindex]
  · simpa [DataSet.Swap, hc] using h

theorem wf_reset (d : DataSet) (h : WellFormed d) : WellFormed (d.ResetScores) := by
  obtain ⟨h1, h2, h3, h4, h5, h6, h7, h8, h9⟩ := h
  simp [WellFormed, DataSet.ResetScores, h1, h2, h3, h4, h5, h6, h7, h8, h9]

theorem wf_apply_mean_std (d : DataSet) (m s : ℚ) (h : WellFormed d) :
    WellFormed (d.ApplyMeanAndStd m s) := by
  obtain ⟨h1, h2, h3, h4, h5, h6, h7, h8, h9⟩ := h
  simp [WellFormed, DataSet.ApplyMeanAndStd, h1, h2, h3, h4, h5, h6, h7, h8, h9]

theorem wf_clear (d : DataSet) : WellFormed (d.Clear) := by
  simp [WellFormed, DataSet.Clear]

/- Concrete instances used by counterexamples and witnesses. -/

/-- The five-sample positive training set of spec §8.8 with scores
`[0.9, 0.5, 0.1, -0.2, -0.7]`, already in descending order. -/
def d5 : DataSet :=
  { imgs := [10, 11, 12, 13, 14]
    imgs_half := [10, 11, 12, 13, 14]
    imgs_quarter := [10, 11, 12, 13, 14]
    gt_shapes := [[1, 1], [1, 2], [2, 1], [2, 2], [3, 1]]
    shape_mask := [1, 1, 1, 1, 1]
    current_shapes := [[1, 1], [1, 2], [2, 1], [2, 2], [3, 1]]
    scores := [0.9, 0.5, 0.1, -0.2, -0.7]
    last_scores := [0, 0, 0, 0, 0]
    weights := [1, 1, 1, 1, 1]
    is_pos := true
    mean_shape := [2, 2]
    is_sorted := true
    size := 5 }

/-- A mined hard-negative sample used in witnesses. -/
def mEx : Mined := ⟨9, 0.4, []⟩

/-- A candidate patch that the cascade accepts, used in the mining
counterexample and witnesses. -/
def cEx : Candidate := ⟨true, 3, 0.5, []⟩

/- Claim theorems. -/

/-- C2: after every public mutating operation of `DataSet`
(`LoadPositiveDataSet`, `LoadNegativeDataSet`, `MoreNegSamples`,
`UpdateScores`, `UpdateWeights`, `Remove`, `QSort`, `Swap`, `ResetScores`,
`ApplyMeanAndStd`, `Clear`), all parallel per-sample sequences have identical
length equal to the `size` field. -/
theorem dataset_ops_preserve_parallel_arrays :
    (∀ entries, WellFormed (LoadPositiveDataSet entries))
  ∧ (∀ negs, WellFormed (LoadNegativeDataSet negs))
  ∧ (∀ d ps rate mined, WellFormed d → WellFormed (DataSet.MoreNegSamples d ps rate mined))
  ∧ (∀ d c, WellFormed d → WellFormed (DataSet.UpdateScores d c))
  ∧ (∀ d E, WellFormed d → WellFormed (DataSet.UpdateWeights d E))
  ∧ (∀ d th, WellFormed d → WellFormed (DataSet.Remove d th))
  ∧ (∀ d : DataSet, WellFormed d.QSort)
  ∧ (∀ d i j, WellFormed d → WellFormed (DataSet.Swap d i j))
  ∧ (∀ d, WellFormed d → WellFormed (DataSet.ResetScores d))
  ∧ (∀ d m s, WellFormed d → WellFormed (DataSet.ApplyMeanAndStd d m s))
  ∧ (∀ d : DataSet, WellFormed d.Clear) :=
  ⟨wf_load_pos, wf_load_neg, wf_more_neg, wf_update_scores, wf_update_weights,
   wf_remove, wf_qsort, wf_swap, wf_reset, wf_apply_mean_std, wf_clear⟩

/-- Witness for C2 at the concrete five-sample set `d5`. -/
theorem dataset_ops_preserve_parallel_arrays_witness :
    WellFormed (DataSet.UpdateScores d5 (fun _ _ => 1)) ∧ WellFormed (DataSet.Remove d5 0) :=
  ⟨dataset_ops_preserve_parallel_arrays.2.2.2.1 d5 (fun _ _ => 1) (by decide),
   dataset_ops_preserve_parallel_arrays.2.2.2.2.2.1 d5 0 (by decide)⟩

/-- C3: `UpdateScores(c)` followed by `ResetScores()` restores every sample's
score to exactly its value before the update (single-level undo through
`last_scores`). -/
theorem update_then_reset_restores_scores (d : DataSet) (c : Cart) :
    ((d.UpdateScores c).ResetScores).scores = d.scores := rfl

/-- C4: `Remove(θ)` deletes exactly the samples whose score is strictly below
θ, preserves the relative order of the survivors, compacts every parallel
array by one and the same deletion (keyed on the scores), and sets `size` to
the surviving count. -/
theorem remove_filters_by_score (d : DataSet) (th : ℚ) (h : WellFormed d) :
    (d.Remove th).scores = d.scores.filter (fun s => decide (¬ s < th))
  ∧ (d.Remove th).scores.Sublist d.scores
  ∧ (d.Remove th).imgs
      = ((d.imgs.zip d.scores).filter (fun q => decide (¬ q.2 < th))).map Prod.fst
  ∧ (d.Remove th).imgs_half
      = ((d.imgs_half.zip d.scores).filter (fun q => decide (¬ q.2 < th))).map Prod.fst
  ∧ (d.Remove th).imgs_quarter
      = ((d.imgs_quarter.zip d.scores).filter (fun q => decide (¬ q.2 < th))).map Prod.fst
  ∧ (d.Remove th).gt_shapes
      = ((d.gt_shapes.zip d.scores).filter (fun q => decide (¬ q.2 < th))).map Prod.fst
  ∧ (d.Remove th).shape_mask
      = ((d.shape_mask.zip d.scores).filter (fun q => decide (¬ q.2 < th))).map Prod.fst
  ∧ (d.Remove th).current_shapes
      = ((d.current_shapes.zip d.scores).filter (fun q => decide (¬ q.2 < th))).map Prod.fst
  ∧ (d.Remove th).last_scores
      = ((d.last_scores.zip d.scores).filter (fun q => decide (¬ q.2 < th))).map Prod.fst
  ∧ (d.Remove th).weights
      = ((d.weights.zip d.scores).filter (fun q => decide (¬ q.2 < th))).map Prod.fst
  ∧ (d.Remove th).size = (d.Remove th).scores.length := by
  obtain ⟨h1, h2, h3, h4, h5, h6, h7, h8, h9⟩ := h
  have Z : ∀ {α : Type} (xs : List α), xs.length = d.size →
      filterBy d.scores (fun s => decide (¬ s < th)) xs
        = ((xs.zip d.scores).filter (fun q => decide (¬ q.2 < th))).map Prod.fst := by
    intro α xs hx
    exact filterBy_eq_zip _ _ _ (by rw [h7, hx])
  refine ⟨filterBy_self _ _, ?_, Z _ h1, Z _ h2, Z _ h3, Z _ h4, Z _ h5, Z _ h6, Z _ h8, Z _ h9, rfl⟩
  rw [show (d.Remove th).scores = _ from filterBy_self _ _]
  exact List.filter_sublist _

/-- Witness for C4: removing below θ = 0 from `d5` keeps exactly the three
nonnegative scores in their original order. -/
theorem remove_filters_by_score_witness : (DataSet.Remove d5 0).scores = [0.9, 0.5, 0.1] :=
  (remove_filters_by_score d5 0 (by decide)).1.trans (by norm_num [d5])

/-- C5, counterexample: on the five-sample set of spec §8.8 the threshold
returned by `CalcThresholdByNumber(2)` is `0.1`, which is not strictly
between `-0.7` and `-0.2` as the claim states. -/
theorem calc_threshold_range_cex :
    ¬ ((-0.7 : ℚ) < d5.CalcThresholdByNumber 2 ∧ d5.CalcThresholdByNumber 2 ≤ -0.2) := by
  have hth : d5.CalcThresholdByNumber 2 = 0.1 := by
    norm_num [DataSet.CalcThresholdByNumber, d5]
  rw [hth]
  norm_num

/-- C5 (amended): on the five-sample set with scores
`[0.9, 0.5, 0.1, -0.2, -0.7]`, `CalcThresholdByNumber(2)` returns `θ = 0.1`
(the smallest kept score, with `-0.2 < θ ≤ 0.1` and exactly 2 samples
scoring strictly below θ), and `Remove(θ)` leaves exactly 3 samples whose
scores are `[0.9, 0.5, 0.1]` in that order. -/
theorem calc_threshold_amended :
    d5.CalcThresholdByNumber 2 = 0.1
  ∧ ((-0.2 : ℚ) < d5.CalcThresholdByNumber 2 ∧ d5.CalcThresholdByNumber 2 ≤ 0.1)
  ∧ (d5.scores.filter (fun s => decide (s < d5.CalcThresholdByNumber 2))).length = 2
  ∧ (d5.Remove (d5.CalcThresholdByNumber 2)).size = 3
  ∧ (d5.Remove (d5.CalcThresholdByNumber 2)).scores = [0.9, 0.5, 0.1] := by
  have hth : d5.CalcThresholdByNumber 2 = 0.1 := by
    norm_num [DataSet.CalcThresholdByNumber, d5]
  rw [hth]
  refine ⟨rfl, by norm_num, ?_, ?_, ?_⟩ <;>
    norm_num [DataSet.Remove, filterBy, d5]

/-- C6: after `QSort()` the scores are in descending order, and the sort is
one single permutation of `[0, size)` applied consistently to every parallel
attribute array. -/
theorem qsort_sorted_descending_joint_permutation (d : DataSet) :
    List.Sorted (fun a b : ℚ => b ≤ a) (d.QSort).scores
  ∧ ∃ p : List ℕ, p.Perm (List.range d.size)
      ∧ (d.QSort).scores = p.map (fun i => d.scores.getD i 0)
      ∧ (d.QSort).imgs = p.map (fun i => d.imgs.getD i 0)
      ∧ (d.QSort).imgs_half = p.map (fun i => d.imgs_half.getD i 0)
      ∧ (d.QSort).imgs_quarter = p.map (fun i => d.imgs_quarter.getD i 0)
      ∧ (d.QSort).gt_shapes = p.map (fun i => d.gt_shapes.getD i [])
      ∧ (d.QSort).shape_mask = p.map (fun i => d.shape_mask.getD i 0)
      ∧ (d.QSort).current_shapes = p.map (fun i => d.current_shapes.getD i [])
      ∧ (d.QSort).last_scores = p.map (fun i => d.last_scores.getD i 0)
      ∧ (d.QSort).weights = p.map (fun i => d.weights.getD i 0)
      ∧ (d.QSort).size = d.size := by
  haveI : IsTotal ℕ (fun i j => d.scores.getD j 0 ≤ d.scores.getD i 0) :=
    ⟨fun a b => le_total (d.scores.getD b 0) (d.scores.getD a 0)⟩
  haveI : IsTrans ℕ (fun i j => d.scores.getD j 0 ≤ d.scores.getD i 0) :=
    ⟨fun _ _ _ hab hbc => le_trans hbc hab⟩
  constructor
  · exact List.Pairwise.map _ (fun _ _ hr => hr)
      (List.sorted_insertionSort _ (List.range d.size))
  · exact ⟨_, List.perm_insertionSort _ _, rfl, rfl, rfl, rfl, rfl, rfl, rfl, rfl, rfl,
      by simp [DataSet.QSort, reindex, List.length_insertionSort]⟩

/-- C7: `UpdateWeights` sets every sample's weight to `E(-y * f)` with label
`y = +1` on a positive set and `-1` on a negative set, where `E` is the
external exponential; the paired overload applies exactly this update to both
sets together. -/
theorem update_weights_formula (E : ℚ → ℚ) (d pos neg : DataSet) (h : WellFormed d) :
    (∀ i, i < d.size →
      (d.UpdateWeights E).weights.getD i 0
        = E (-(if d.is_pos then (1 : ℚ) else -1) * d.scores.getD i 0))
  ∧ (d.UpdateWeights E).weights.length = d.size
  ∧ UpdateWeightsPair E pos neg = (pos.UpdateWeights E, neg.UpdateWeights E) := by
  obtain ⟨-, -, -, -, -, -, h7, -, -⟩ := h
  refine ⟨?_, ?_, rfl⟩
  · intro i hi
    exact getD_map_of_lt _ 0 0 d.scores i (by rw [h7]; exact hi)
  · show (d.scores.map _).length = d.size
    rw [List.length_map, h7]

/-- Witness for C7: on `d5` (a positive set) with the identity in place of
the exponential, the first weight becomes `-(0.9)`. -/
theorem update_weights_formula_witness :
    (d5.UpdateWeights (fun q => q)).weights.getD 0 0 = -(0.9 : ℚ) := by
  have h := (update_weights_formula (fun q => q) d5 d5 d5 (by decide)).1 0 (by decide)
  simpa [d5] using h

/-- C8: on a negative set with a positive deficit `pos_size * rate - size`,
`MoreNegSamples` appends the mined samples with shape mask `-1` (hence no
ground-truth shape anywhere in the resulting set), returns normally, and on a
shortfall (fewer mined samples than the deficit) the resulting size is
observably below the target `pos_size * rate`. -/
theorem more_neg_samples_shortfall (d : DataSet) (ps : ℕ) (rate : ℚ) (mined : List Mined)
    (hneg : d.is_pos = false) (hdef : (0 : ℚ) < ps * rate - d.size) :
    (d.MoreNegSamples ps rate mined).size = d.size + mined.length
  ∧ (d.MoreNegSamples ps rate mined).shape_mask
      = d.shape_mask ++ List.replicate mined.length (-1)
  ∧ (∀ idx : ℤ, (d.MoreNegSamples ps rate mined).HasGtShape idx = some false)
  ∧ ((mined.length : ℚ) < ps * rate - d.size →
      ((d.MoreNegSamples ps rate mined).size : ℚ) < ps * rate) := by
  refine ⟨?_, ?_, ?_, ?_⟩
  · simp [DataSet.MoreNegSamples, hdef]
  · simp [DataSet.MoreNegSamples, hdef]
  · intro idx
    simp [DataSet.MoreNegSamples, DataSet.HasGtShape, hdef, hneg]
  · intro hlt
    have h1 : (d.MoreNegSamples ps rate mined).size = d.size + mined.length := by
      simp [DataSet.MoreNegSamples, hdef]
    rw [h1]
    push_cast
    linarith

/-- Witness for C8: a negative set of size 2 with target `2 * 2 = 4` and a
single mined sample ends at size 3, still below the target. -/
theorem more_neg_samples_shortfall_witness :
    ((LoadNegativeDataSet [7, 8]).MoreNegSamples 2 2 [mEx]).size = 3
  ∧ (((LoadNegativeDataSet [7, 8]).MoreNegSamples 2 2 [mEx]).size : ℚ) < 2 * 2 := by
  have h := more_neg_samples_shortfall (LoadNegativeDataSet [7, 8]) 2 2 [mEx] rfl (by norm_num [LoadNegativeDataSet])
  refine ⟨h.1.trans (by norm_num [LoadNegativeDataSet]), h.2.2.2 (by norm_num [LoadNegativeDataSet])⟩

/-- C10: translated from the inline implementation of `HasGtShape`: on a
negative set the call returns `false` for every index (the `&&`
short-circuits, so `shape_mask` is never read and no bounds requirement
applies); on a positive set an in-bounds index returns exactly
`shape_mask[index] > 0` (so a zero or negative mask value means no
ground-truth shape), while an out-of-bounds index is undefined behaviour
(`none`), so in-bounds is required only in the positive case. -/
theorem has_gt_shape_semantics (d : DataSet) (idx : ℤ) :
    (d.is_pos = false → d.HasGtShape idx = some false)
  ∧ (d.is_pos = true → 0 ≤ idx → idx.toNat < d.shape_mask.length →
      d.HasGtShape idx = some (decide ((0 : ℤ) < d.shape_mask.getD idx.toNat 0)))
  ∧ (d.is_pos = true → 0 ≤ idx → idx.toNat < d.shape_mask.length →
      d.shape_mask.getD idx.toNat 0 ≤ 0 → d.HasGtShape idx = some false)
  ∧ (d.is_pos = true → (idx < 0 ∨ (d.shape_mask.length : ℤ) ≤ idx) →
      d.HasGtShape idx = none) := by
  refine ⟨?_, ?_, ?_, ?_⟩
  · intro hneg
    simp [DataSet.HasGtShape, hneg]
  · intro hpos h0 hlt
    simp [DataSet.HasGtShape, hpos, h0, hlt]
  · intro hpos h0 hlt hm
    simp [List.getD_eq_getElem?_getD, List.getElem?_eq_getElem, hlt] at hm
    simp [DataSet.HasGtShape, hpos, h0, hlt]
    omega
  · intro hpos hout
    have hcond : ¬ (0 ≤ idx ∧ idx.toNat < d.shape_mask.length) := by omega
    simp [DataSet.HasGtShape, hpos, hcond]

/-- Witness for C10: index 0 of the positive set `d5` has a ground-truth
shape; any index of a negative set, even a negative one, has none. -/
theorem has_gt_shape_semantics_witness :
    d5.HasGtShape 0 = some true
  ∧ (LoadNegativeDataSet [7, 8]).HasGtShape (-3) = some false := by
  constructor
  · have h := (has_gt_shape_semantics d5 0).2.1 rfl (by decide) (by decide)
    simpa [d5] using h
  · exact (has_gt_shape_semantics (LoadNegativeDataSet [7, 8]) (-3)).1 rfl

/-- C1, counterexample: with target `size = 1` and two workers whose
cursors each hold one accepted patch, the schedule that lets both workers
pick up their candidates before either commits makes `Generate` return 2
accepted samples — more than the requested size, exactly the
`real size > size` overshoot noted in the header. -/
theorem generate_overshoot_cex :
    ¬ ((run 1 [0, 1, 0, 1] (initState [[cEx], [cEx]])).nega_n ≤ 1) := by
  decide

/-- C1 (amended): the accepted count returned by `Generate` may exceed the
requested `size` (header note: `real size > size`), but for `size ≥ 1` it
never exceeds `size + W - 1` with `W` workers: each worker can append at most
one already-evaluated patch after the stop flag is raised. -/
theorem generate_accept_bound (size : ℕ) (cands : List (List Candidate)) (sched : List ℕ)
    (h : 1 ≤ size) :
    (run size sched (initState cands)).nega_n ≤ size + cands.length - 1 := by
  have hinit : BoundInv size (initState cands) := by
    constructor
    · intro _
      simpa [initState] using h
    · intro hfl
      simp [initState] at hfl
  obtain ⟨hA, hB⟩ := boundInv_run size sched (initState cands) hinit
  have hW : (run size sched (initState cands)).workers.length = cands.length := by
    rw [run_workers_length]
    simp [initState]
  cases hst : (run size sched (initState cands)).stop with
  | false =>
    have := hA hst
    omega
  | true =>
    have := hB hst
    rw [hW] at this
    omega

/-- Witness for C1 (amended) at `size = 1` with two workers. -/
theorem generate_accept_bound_witness :
    (run 1 [] (initState [[cEx], [cEx]])).nega_n ≤ 1 + 2 - 1 :=
  generate_accept_bound 1 [[cEx], [cEx]] [] (by decide)

/-- C9: under every interleaving of any number of workers, the shared accept
counter `nega_n` equals the sum of the per-worker accept counts (no lost
updates) and equals the number of appended samples, and the reported
acceptance ratio is exactly `nega_n / carts_n`; the model mutates the shared
output and the three counters only inside the single `write_lock` critical
section, exactly as the spec demands. -/
theorem parallel_mining_stats_consistent (size : ℕ) (cands : List (List Candidate))
    (sched : List ℕ) :
    (run size sched (initState cands)).nega_n = accSum (run size sched (initState cands))
  ∧ (run size sched (initState cands)).ratio_stat
      = ((run size sched (initState cands)).nega_n : ℚ)
          / ((run size sched (initState cands)).carts_n : ℚ)
  ∧ (run size sched (initState cands)).imgs.length
      = (run size sched (initState cands)).nega_n := by
  have h0 : StatsInv (initState cands) := by
    refine ⟨?_, ?_, ?_⟩
    · simp only [initState, accSum]
      induction cands with
      | nil => rfl
      | cons a t ih => simpa using ih
    · simp [initState]
    · simp [initState]
  exact statsInv_run size sched (initState cands) h0

end JDA
